import Mathlib

/-!
# Verification of the rt-common library

A shallow embedding of the `rt-common` Rust library (modules `time.rs`,
`rt_task.rs`, `utils.rs`) together with proofs about it.

Modelling conventions:
* `f64` values are modelled as exact rationals (`ℚ`).  The library only ever
  stores finite values obtained from the constructors and arithmetic on them;
  rounding is outside this model, and the single rational zero stands for
  IEEE `+0.0`.
* Operations whose specified behaviour involves IEEE special values
  (division by zero, square root of a negative) are additionally modelled
  with an explicit `F64` value type carrying `±∞` and `NaN`.
* Rust's `f64::floor` becomes `Int.floor`, and the binary `%` on finite
  floats (which is exact for integral operands) is modelled by
  `x - y * trunc (x / y)`.
* `i64` arithmetic (the `hyperperiod` fold) is modelled on `ℤ` with
  explicit two's-complement wrapping at 64 bits and a saturating
  float-to-integer cast, i.e. the release-build semantics of Rust; a debug
  build would panic on the same overflow.
* Fallible deserialization is modelled with `Except`.
-/

namespace RTCommon

/-- Model of `struct Time` (src/time.rs): a wrapper around an `f64`
nanosecond count, modelled as an exact rational. -/
structure Time where
  value_ns : ℚ
deriving DecidableEq, Repr

/-- Model of `struct Time2` (src/time.rs): a wrapper around an `f64`
holding nanoseconds squared. -/
structure Time2 where
  value_ns_2 : ℚ
deriving DecidableEq, Repr

namespace Time

/-- `Time::MICRO_TO_NANO` -/
def MICRO_TO_NANO : ℚ := 1000
/-- `Time::MILLI_TO_NANO` -/
def MILLI_TO_NANO : ℚ := 1000000
/-- `Time::SECS_TO_NANO` -/
def SECS_TO_NANO : ℚ := 1000000000

/-- `Time::zero` -/
def zero : Time := ⟨0⟩

/-- `Time::one` -/
def one : Time := ⟨1⟩

/-- `Time::nanos` -/
def nanos (time_ns : ℚ) : Time := ⟨time_ns⟩

/-- `Time::micros` -/
def micros (time_us : ℚ) : Time := ⟨time_us * MICRO_TO_NANO⟩

/-- `Time::millis` -/
def millis (time_ms : ℚ) : Time := ⟨time_ms * MILLI_TO_NANO⟩

/-- `Time::secs` -/
def secs (time_s : ℚ) : Time := ⟨time_s * SECS_TO_NANO⟩

/-- `Time::as_nanos` -/
def as_nanos (t : Time) : ℚ := t.value_ns

/-- `Time::floor` -/
def floor (t : Time) : Time := ⟨(⌊t.value_ns⌋ : ℚ)⟩

/-- `Time::ceil` -/
def ceil (t : Time) : Time := ⟨(⌈t.value_ns⌉ : ℚ)⟩

/-- The tolerance `let error = 0.5;` used by `PartialEq for Time`. -/
def error : ℚ := 1/2

end Time

/-- Model of `f64::abs` on finite values. -/
def ratAbs (q : ℚ) : ℚ := if q < 0 then -q else q

namespace Time

/-- `impl PartialEq for Time`: `f64::abs(self.value_ns - other.value_ns) < error`. -/
def eq (a b : Time) : Bool := decide (ratAbs (a.value_ns - b.value_ns) < error)

/-- `impl Ord for Time`: comparison of the wrapped values through
`ordered_float::OrderedFloat`.  On finite values this is the ordinary
numeric comparison. -/
def cmp (a b : Time) : Ordering :=
  if a.value_ns < b.value_ns then .lt
  else if a.value_ns = b.value_ns then .eq
  else .gt

/-- Rust's `<=` on `Time` (via `PartialOrd::le`, i.e. `partial_cmp` is
`Less` or `Equal`): exact comparison of the nanosecond values. -/
def le (a b : Time) : Bool := cmp a b ≠ Ordering.gt

/-- `impl Neg for Time` -/
def neg (t : Time) : Time := ⟨-t.value_ns⟩

/-- `impl Add for Time` -/
def add (a b : Time) : Time := ⟨a.value_ns + b.value_ns⟩

/-- `impl Sub for Time` -/
def sub (a b : Time) : Time := ⟨a.value_ns - b.value_ns⟩

/-- `impl Mul<f64> for Time` -/
def mul_scalar (t : Time) (rhs : ℚ) : Time := ⟨t.value_ns * rhs⟩

/-- `impl Div for Time`: the quotient of two durations is a scalar. -/
def div (a b : Time) : ℚ := a.value_ns / b.value_ns

/-- `impl Mul<Time> for Time`: the product of two durations is a `Time2`. -/
def mul (a b : Time) : Time2 := ⟨a.value_ns * b.value_ns⟩

end Time

/-- An `f64` result with the IEEE special values made explicit: a finite
payload, the two infinities, or NaN. -/
inductive F64 (α : Type) where
  | finite (val : α)
  | posInf
  | negInf
  | nan
deriving DecidableEq, Repr

/-- Model of `f64` division on finite operands with the IEEE
special-value outcomes: a nonzero quotient over zero gives a signed
infinity, `0.0 / 0.0` gives NaN (the model's rational zero is `+0.0`). -/
def f64div (x y : ℚ) : F64 ℚ :=
  if y = 0 then
    if x = 0 then .nan else if 0 < x then .posInf else .negInf
  else .finite (x / y)

/-- `impl Div for Time` under the IEEE-specials-aware value model:
`self.value_ns / rhs.value_ns`. -/
def Time.div_ieee (a b : Time) : F64 ℚ := f64div a.value_ns b.value_ns

/-- Truncation of a rational toward zero, the rounding used by the IEEE
`%` operator's implicit quotient. -/
def ratTrunc (q : ℚ) : ℤ := if q < 0 then ⌈q⌉ else ⌊q⌋

/-- Model of the `f64` binary `%` operator on finite values with nonzero
divisor: `x % y = x - y * trunc (x / y)` (exact for IEEE doubles). -/
def fRem (x y : ℚ) : ℚ := x - y * (ratTrunc (x / y) : ℚ)

/-- `impl Rem for Time`: `self.value_ns.floor() % rhs.value_ns.floor()`. -/
def Time.rem (a b : Time) : Time := ⟨fRem (⌊a.value_ns⌋ : ℚ) (⌊b.value_ns⌋ : ℚ)⟩

/-! ## String (de)serialization

`serde::Serialize for Time` produces `format!("{} ns", self.value_ns)`;
`Deserialize` trims the string, splits it on whitespace and parses a
number with an optional unit token.  Rust's `f64` `Display` prints a
finite double as a plain (non-exponent) decimal numeral, and every finite
double is a rational whose reduced denominator divides a power of ten, so
the numeral printing/parsing pair is modelled exactly on such rationals.
The model parser covers the plain decimal grammar
`[+-]? digits [. digits]`; exponent forms and `inf`/`NaN`, which the Rust
float parser additionally accepts, are outside the model. -/

/-- The character of a decimal digit (`d < 10`). -/
def digitChar (d : ℕ) : Char := Char.ofNat (48 + d)

/-- The digit value of a character. -/
def charDigit (c : Char) : ℕ := c.toNat - 48

/-- Little-endian decimal digits of `n`, with explicit fuel so that the
definition is structural. -/
def natDigitsAux : ℕ → ℕ → List ℕ
  | 0, _ => []
  | fuel + 1, n => if n = 0 then [] else n % 10 :: natDigitsAux fuel (n / 10)

/-- Little-endian decimal digits of `n` (empty for 0). -/
def natDigits (n : ℕ) : List ℕ := natDigitsAux n n

/-- Value of a little-endian digit list. -/
def digitsValLE : List ℕ → ℕ
  | [] => 0
  | d :: ds => d + 10 * digitsValLE ds

/-- Big-endian character numeral of `n` (empty for 0). -/
def renderNat (n : ℕ) : List Char := (natDigits n).reverse.map digitChar

/-- Left-pad a character list to length `m`. -/
def padLeft (m : ℕ) (c : Char) (l : List Char) : List Char :=
  List.replicate (m - l.length) c ++ l

/-- Render `n / 10^k` as a decimal numeral with `k` fractional digits
(no fractional part for `k = 0`), as Rust's `Display` for `f64` does. -/
def renderUnsigned (n k : ℕ) : List Char :=
  let ds := padLeft (k + 1) '0' (renderNat n)
  if k = 0 then ds else ds.take (ds.length - k) ++ '.' :: ds.drop (ds.length - k)

/-- Strip all factors `p` from `n`, returning (count, remainder); explicit
fuel keeps the recursion structural. -/
def stripFacAux : ℕ → ℕ → ℕ → ℕ × ℕ
  | 0, _, n => (0, n)
  | fuel + 1, p, n =>
    if 2 ≤ p ∧ p ∣ n ∧ n ≠ 0 then
      ((stripFacAux fuel p (n / p)).1 + 1, (stripFacAux fuel p (n / p)).2)
    else (0, n)

/-- Strip all factors `p` from `n`. -/
def stripFac (p n : ℕ) : ℕ × ℕ := stripFacAux n p n

/-- The number of decimal fraction digits needed for a fraction with
denominator `den`: `max a b` where `den = 2^a * 5^b * rest`. -/
def decExp (den : ℕ) : ℕ :=
  max (stripFac 2 den).1 (stripFac 5 (stripFac 2 den).2).1

/-- Does `den` divide a power of ten (i.e. `den = 2^a * 5^b`)?  Reduced
denominators of finite IEEE doubles always do. -/
def isDecimalDen (den : ℕ) : Bool := (stripFac 5 (stripFac 2 den).2).2 = 1

/-- Decimal rendering of a rational whose denominator divides a power of
ten: the model of Rust's `Display` for the finite `f64` it represents. -/
def ratRender (q : ℚ) : List Char :=
  let k := decExp q.den
  let scaled := q.num.natAbs * 10 ^ k / q.den
  (if q.num < 0 then ['-'] else []) ++ renderUnsigned scaled k

/-- `impl Serialize for Time`: `format!("{} ns", self.value_ns)`. -/
def Time.serialize (t : Time) : String :=
  String.mk (ratRender t.value_ns ++ [' ', 'n', 's'])

/-- Numeric value of a big-endian digit character list. -/
def parseDigits (cs : List Char) : ℕ := digitsValLE ((cs.map charDigit).reverse)

/-- Parse an unsigned decimal numeral `digits [. digits]` (model of the
Rust `f64` parser on the plain decimal grammar). -/
def parseUnsigned (cs : List Char) : Option ℚ :=
  let ip := cs.takeWhile Char.isDigit
  match cs.dropWhile Char.isDigit with
  | [] => if ip.isEmpty then none else some ((parseDigits ip : ℕ) : ℚ)
  | c :: fp =>
    if c = '.' ∧ fp.all Char.isDigit ∧ (ip ≠ [] ∨ fp ≠ []) then
      some (mkRat (parseDigits (ip ++ fp)) (10 ^ fp.length))
    else none

/-- Parse a signed decimal numeral: model of `str::parse::<f64>` on the
plain decimal grammar. -/
def parseNum : List Char → Option ℚ
  | [] => parseUnsigned []
  | c :: rest =>
    if c = '-' then (parseUnsigned rest).map (fun q => -q)
    else if c = '+' then parseUnsigned rest
    else parseUnsigned (c :: rest)

/-- The three deserialization errors of `Deserialize for Time`:
`"Invalid time: {err}"`, `"Unknown time unit: {u}"` and
`"Parsing error, unknown format"`. -/
inductive DeError where
  | invalidTime
  | unknownUnit (unit : List Char)
  | unknownFormat
deriving DecidableEq, Repr

instance : DecidableEq (Except DeError Time) := fun x y =>
  match x, y with
  | .ok a, .ok b =>
    if h : a = b then isTrue (by rw [h]) else isFalse (fun hc => h (Except.ok.inj hc))
  | .error a, .error b =>
    if h : a = b then isTrue (by rw [h]) else isFalse (fun hc => h (Except.error.inj hc))
  | .ok _, .error _ => isFalse (fun hc => Except.noConfusion hc)
  | .error _, .ok _ => isFalse (fun hc => Except.noConfusion hc)

/-- The unit table of `Deserialize for Time`:
`s → 1e9, ms → 1e6, us → 1e3, ns → 1`. -/
def unitFactor : List Char → Option ℚ
  | ['s'] => some Time.SECS_TO_NANO
  | ['m', 's'] => some Time.MILLI_TO_NANO
  | ['u', 's'] => some Time.MICRO_TO_NANO
  | ['n', 's'] => some 1
  | _ => none

/-- The branch of `Deserialize for Time` on the whitespace-split pieces:
one piece is a bare nanosecond number, two pieces are a number and a unit
(number parsed first, as in the source), anything else is a format
error. -/
def deserializeTokens (pieces : List (List Char)) : Except DeError Time :=
  match pieces with
  | [t] =>
    match parseNum t with
    | some time => .ok ⟨time⟩
    | none => .error .invalidTime
  | [t, u] =>
    match parseNum t with
    | none => .error .invalidTime
    | some time =>
      match unitFactor u with
      | some unit => .ok (Time.nanos (time * unit))
      | none => .error (.unknownUnit u)
  | _ => .error .unknownFormat

/-- Model of `str::trim`: drop whitespace from both ends. -/
def trimChars (cs : List Char) : List Char :=
  ((cs.dropWhile Char.isWhitespace).reverse.dropWhile Char.isWhitespace).reverse

/-- Model of `str::split_whitespace` (via an accumulator for the current
word). -/
def splitWsAux : List Char → List Char → List (List Char)
  | [], acc => if acc.isEmpty then [] else [acc.reverse]
  | c :: cs, acc =>
    if c.isWhitespace then
      if acc.isEmpty then splitWsAux cs [] else acc.reverse :: splitWsAux cs []
    else splitWsAux cs (c :: acc)

/-- Model of `str::split_whitespace`. -/
def splitWs (cs : List Char) : List (List Char) := splitWsAux cs []

/-- `impl Deserialize for Time`: trim, split on whitespace, dispatch on
the number of pieces. -/
def Time.deserialize (s : String) : Except DeError Time :=
  deserializeTokens (splitWs (trimChars s.data))

/-- `Time2::sqrt`: `f64::sqrt` is modelled by the exact square root on the
reals; the result is the nanosecond value of the returned `Time`. -/
noncomputable def Time2.sqrt (t : Time2) : ℝ := Real.sqrt (t.value_ns_2 : ℝ)

/-- `Time2::sqrt` under the IEEE-specials-aware value model: a negative
operand yields NaN, otherwise the exact real square root. -/
noncomputable def Time2.sqrt_ieee (t : Time2) : F64 ℝ :=
  if t.value_ns_2 < 0 then .nan else .finite (Real.sqrt (t.value_ns_2 : ℝ))

/-- Model of `struct RTTask` (src/rt_task.rs). -/
structure RTTask where
  wcet : Time
  deadline : Time
  period : Time
deriving DecidableEq, Repr

namespace RTTask

/-- `RTTask::new_ns` -/
def new_ns (wcet deadline period : ℕ) : RTTask :=
  ⟨Time.nanos wcet, Time.nanos deadline, Time.nanos period⟩

/-- `RTTask::utilization`: WCET / Period. -/
def utilization (t : RTTask) : ℚ := t.wcet.value_ns / t.period.value_ns

/-- `RTTask::density`: WCET / Deadline. -/
def density (t : RTTask) : ℚ := t.wcet.value_ns / t.deadline.value_ns

/-- `RTTask::laxity`: Deadline - WCET. -/
def laxity (t : RTTask) : Time := t.deadline.sub t.wcet

/-- `RTTask::has_implicit_deadline`: `self.deadline == self.period`
(the tolerant equality). -/
def has_implicit_deadline (t : RTTask) : Bool := Time.eq t.deadline t.period

/-- `RTTask::has_constrained_deadline`: `self.deadline <= self.period`
(the exact ordering). -/
def has_constrained_deadline (t : RTTask) : Bool := Time.le t.deadline t.period

/-- `RTTask::utilization` under the IEEE-specials-aware value model. -/
def utilization_ieee (t : RTTask) : F64 ℚ := f64div t.wcet.value_ns t.period.value_ns

/-- `RTTask::density` under the IEEE-specials-aware value model. -/
def density_ieee (t : RTTask) : F64 ℚ := f64div t.wcet.value_ns t.deadline.value_ns

end RTTask

/-- Two's-complement wrapping of an integer into the signed 64-bit range
`[-2^63, 2^63 - 1]`: release-build Rust `i64` overflow semantics. -/
def wrap64 (x : ℤ) : ℤ :=
  (x + 9223372036854775808) % 18446744073709551616 - 9223372036854775808

/-- Rust's saturating `as i64` cast, applied to an already-floored finite
value (clamps to `i64::MIN`/`i64::MAX`). -/
def satCast64 (x : ℤ) : ℤ :=
  max (-9223372036854775808) (min 9223372036854775807 x)

/-- Model of `num::integer::lcm` on `i64`:
`if both zero { 0 } else { (a * (b / gcd(a, b))).abs() }`, with the
division truncating and the multiplication, the `abs`, and the `gcd`
result wrapping at 64 bits (release semantics; a debug build panics on
the same overflow). -/
def i64lcm (a b : ℤ) : ℤ :=
  if a = 0 ∧ b = 0 then 0
  else wrap64 |wrap64 (a * b.tdiv (wrap64 (Int.gcd a b)))|

namespace RTUtils

/-- Model of `taskset.windows(2).all(|w| p w[0] w[1])`: every adjacent
pair of the list satisfies `p`. -/
def windowsAll (p : RTTask → RTTask → Bool) : List RTTask → Bool
  | a :: b :: rest => p a b && windowsAll p (b :: rest)
  | _ => true

/-- `RTUtils::is_taskset_sorted_by_period` -/
def is_taskset_sorted_by_period (taskset : List RTTask) : Bool :=
  windowsAll (fun a b => Time.le a.period b.period) taskset

/-- `RTUtils::is_taskset_sorted_by_deadline` -/
def is_taskset_sorted_by_deadline (taskset : List RTTask) : Bool :=
  windowsAll (fun a b => Time.le a.deadline b.deadline) taskset

/-- `RTUtils::implicit_deadlines` -/
def implicit_deadlines (taskset : List RTTask) : Bool :=
  taskset.all RTTask.has_implicit_deadline

/-- `RTUtils::constrained_deadlines` -/
def constrained_deadlines (taskset : List RTTask) : Bool :=
  taskset.all RTTask.has_constrained_deadline

/-- `RTUtils::hyperperiod`: fold `num::integer::lcm` on `i64` over the
periods floored and cast with `as i64` (saturating), starting from 1. -/
def hyperperiod (taskset : List RTTask) : Time :=
  ⟨(((taskset.map fun task => satCast64 ⌊task.period.value_ns⌋).foldl
      (fun lcm period => i64lcm lcm period) 1 : ℤ) : ℚ)⟩

end RTUtils

end RTCommon

namespace RTCommon

/-! ## Helper lemmas -/

theorem ratAbs_eq_abs (q : ℚ) : ratAbs q = |q| := by
  unfold ratAbs
  split_ifs with h
  · exact (abs_of_neg h).symm
  · exact (abs_of_nonneg (not_lt.mp h)).symm

theorem ratTrunc_zero : ratTrunc 0 = 0 := by simp [ratTrunc]

theorem ratTrunc_intCast_div_natCast (m : ℤ) (d : ℕ) :
    ratTrunc ((m : ℚ) / (d : ℚ)) = m.tdiv d := by
  rcases Nat.eq_zero_or_pos d with hd | hd
  · subst hd
    simp [ratTrunc_zero]
  rcases le_or_lt 0 m with hm | hm
  · have hq : (0:ℚ) ≤ (m : ℚ) / (d : ℚ) :=
      div_nonneg (by exact_mod_cast hm) (by positivity)
    rw [ratTrunc, if_neg (not_lt.mpr hq), Rat.floor_intCast_div_natCast,
      Int.tdiv_eq_ediv hm (by positivity)]
  · have hq : (m : ℚ) / (d : ℚ) < 0 :=
      div_neg_of_neg_of_pos (by exact_mod_cast hm) (by exact_mod_cast hd)
    rw [ratTrunc, if_pos hq]
    have hneg : (m : ℚ) / (d : ℚ) = -((((-m) : ℤ) : ℚ) / (d : ℚ)) := by
      push_cast
      ring
    rw [hneg, Int.ceil_neg, Rat.floor_intCast_div_natCast,
      ← Int.tdiv_eq_ediv (by omega) (by positivity), Int.neg_tdiv, neg_neg]

theorem ratTrunc_intCast_div (m n : ℤ) :
    ratTrunc ((m : ℚ) / (n : ℚ)) = m.tdiv n := by
  rcases le_or_lt 0 n with hn | hn
  · have : ((n.toNat : ℕ) : ℚ) = (n : ℚ) := by exact_mod_cast Int.toNat_of_nonneg hn
    rw [← this, ratTrunc_intCast_div_natCast, Int.toNat_of_nonneg hn]
  · have : (m : ℚ) / (n : ℚ) = (((-m : ℤ)) : ℚ) / (((-n : ℤ)) : ℚ) := by
      push_cast
      rw [neg_div_neg_eq]
    rw [this]
    have : ((-n).toNat : ℚ) = ((-n : ℤ) : ℚ) := by
      exact_mod_cast Int.toNat_of_nonneg (by omega)
    rw [← this, ratTrunc_intCast_div_natCast, Int.toNat_of_nonneg (a := -n) (by omega)]
    rw [Int.neg_tdiv, Int.tdiv_neg, neg_neg]

theorem fRem_intCast (m n : ℤ) : fRem (m : ℚ) (n : ℚ) = ((Int.tmod m n : ℤ) : ℚ) := by
  rw [fRem, ratTrunc_intCast_div, Int.tmod_def]
  push_cast
  ring

theorem int_dvd_lcm_left (a b : ℤ) : a ∣ (Int.lcm a b : ℤ) := by
  rw [Int.lcm]
  exact Int.natAbs_dvd.mp (Int.natCast_dvd_natCast.mpr (Nat.dvd_lcm_left _ _))

theorem int_dvd_lcm_right (a b : ℤ) : b ∣ (Int.lcm a b : ℤ) := by
  rw [Int.lcm]
  exact Int.natAbs_dvd.mp (Int.natCast_dvd_natCast.mpr (Nat.dvd_lcm_right _ _))

theorem init_dvd_foldl_lcm :
    ∀ (l : List ℤ) (acc : ℤ),
      acc ∣ l.foldl (fun lcm period => (Int.lcm lcm period : ℤ)) acc
  | [], acc => dvd_refl acc
  | x :: l, acc =>
    dvd_trans (int_dvd_lcm_left acc x) (init_dvd_foldl_lcm l _)

theorem mem_dvd_foldl_lcm :
    ∀ (l : List ℤ) (acc : ℤ), ∀ p ∈ l,
      p ∣ l.foldl (fun lcm period => (Int.lcm lcm period : ℤ)) acc
  | x :: l, acc, p, hp => by
    rcases List.mem_cons.mp hp with h | h
    · subst h
      exact dvd_trans (int_dvd_lcm_right acc p) (init_dvd_foldl_lcm l _)
    · exact mem_dvd_foldl_lcm l _ p h

theorem wrap64_eq_self (x : ℤ) (h1 : -9223372036854775808 ≤ x)
    (h2 : x ≤ 9223372036854775807) : wrap64 x = x := by
  rw [wrap64]
  omega

theorem satCast64_eq_self (x : ℤ) (h1 : -9223372036854775808 ≤ x)
    (h2 : x ≤ 9223372036854775807) : satCast64 x = x := by
  rw [satCast64]
  omega

theorem int_lcm_pos (x y : ℤ) (hx : x ≠ 0) (hy : y ≠ 0) : 0 < (Int.lcm x y : ℤ) := by
  have h : 0 < Int.lcm x y :=
    Nat.lcm_pos (Int.natAbs_pos.mpr hx) (Int.natAbs_pos.mpr hy)
  exact_mod_cast h

theorem int_lcm_mul_eq (a b : ℤ) (ha : 0 < a) (hb : 0 < b) :
    a * b.tdiv (Int.gcd a b : ℤ) = (Int.lcm a b : ℤ) := by
  have hgz : Int.gcd a b ≠ 0 := fun h =>
    (ne_of_gt ha) (Int.gcd_eq_zero_iff.mp h).1
  have hgpos : (0 : ℤ) < (Int.gcd a b : ℤ) := by
    exact_mod_cast Nat.pos_of_ne_zero hgz
  have htd : b.tdiv (Int.gcd a b : ℤ) * (Int.gcd a b : ℤ) = b :=
    Int.tdiv_mul_cancel Int.gcd_dvd_right
  have hmul : (Int.gcd a b : ℤ) * (Int.lcm a b : ℤ) = a * b := by
    have h1 : ((Int.gcd a b * Int.lcm a b : ℕ) : ℤ) = ((Int.natAbs (a * b) : ℕ) : ℤ) := by
      exact_mod_cast congrArg (Nat.cast : ℕ → ℤ) (Int.gcd_mul_lcm a b)
    rw [Nat.cast_mul] at h1
    rw [h1, Int.natAbs_of_nonneg (le_of_lt (mul_pos ha hb))]
  apply mul_right_cancel₀ (ne_of_gt hgpos)
  calc a * b.tdiv (Int.gcd a b : ℤ) * (Int.gcd a b : ℤ)
      = a * (b.tdiv (Int.gcd a b : ℤ) * (Int.gcd a b : ℤ)) := by ring
    _ = a * b := by rw [htd]
    _ = (Int.gcd a b : ℤ) * (Int.lcm a b : ℤ) := hmul.symm
    _ = (Int.lcm a b : ℤ) * (Int.gcd a b : ℤ) := by ring

theorem i64lcm_eq_lcm (a b : ℤ) (ha : 0 ≤ a) (hb : 0 ≤ b)
    (hl : (Int.lcm a b : ℤ) ≤ 9223372036854775807) :
    i64lcm a b = (Int.lcm a b : ℤ) := by
  have hw0 : wrap64 0 = 0 := by decide
  by_cases hz : a = 0 ∧ b = 0
  · obtain ⟨rfl, rfl⟩ := hz
    rw [i64lcm, if_pos ⟨rfl, rfl⟩]
    simp [Int.lcm]
  rw [i64lcm, if_neg hz]
  rcases eq_or_lt_of_le ha with ha0 | hapos
  · rw [← ha0, zero_mul, hw0, abs_zero, hw0, Int.lcm_zero_left]
    rfl
  rcases eq_or_lt_of_le hb with hb0 | hbpos
  · rw [← hb0, Int.zero_tdiv, mul_zero, hw0, abs_zero, hw0, Int.lcm_zero_right]
    rfl
  · have hga : (Int.gcd a b : ℤ) ∣ a := Int.gcd_dvd_left
    have hgz : Int.gcd a b ≠ 0 := fun h => (ne_of_gt hapos) (Int.gcd_eq_zero_iff.mp h).1
    have hgpos : (0 : ℤ) < (Int.gcd a b : ℤ) := by
      exact_mod_cast Nat.pos_of_ne_zero hgz
    have hlpos : (0 : ℤ) < (Int.lcm a b : ℤ) :=
      int_lcm_pos a b (ne_of_gt hapos) (ne_of_gt hbpos)
    have hale : a ≤ (Int.lcm a b : ℤ) := Int.le_of_dvd hlpos (int_dvd_lcm_left a b)
    have hgle : (Int.gcd a b : ℤ) ≤ a := Int.le_of_dvd hapos hga
    rw [wrap64_eq_self (Int.gcd a b : ℤ) (by omega) (by omega),
      int_lcm_mul_eq a b hapos hbpos,
      wrap64_eq_self (Int.lcm a b : ℤ) (by omega) (by omega),
      abs_of_pos hlpos,
      wrap64_eq_self (Int.lcm a b : ℤ) (by omega) (by omega)]

theorem foldl_lcm_pos :
    ∀ (l : List ℤ) (acc : ℤ), 0 < acc → (∀ p ∈ l, 0 < p) →
      0 < l.foldl (fun lcm period => (Int.lcm lcm period : ℤ)) acc
  | [], acc, ha, _ => ha
  | p :: t, acc, ha, hp => by
    rw [List.foldl_cons]
    exact foldl_lcm_pos t _
      (int_lcm_pos acc p (ne_of_gt ha) (ne_of_gt (hp p (by simp))))
      (fun y hy => hp y (by simp [hy]))

theorem foldl_i64lcm_eq :
    ∀ (l : List ℤ) (acc : ℤ), 0 < acc → (∀ p ∈ l, 0 < p) →
      l.foldl (fun lcm period => (Int.lcm lcm period : ℤ)) acc ≤ 9223372036854775807 →
      l.foldl (fun lcm period => i64lcm lcm period) acc
        = l.foldl (fun lcm period => (Int.lcm lcm period : ℤ)) acc
  | [], _, _, _, _ => rfl
  | p :: t, acc, ha, hp, hb => by
    rw [List.foldl_cons] at hb ⊢
    conv_rhs => rw [List.foldl_cons]
    have hppos : 0 < p := hp p (by simp)
    have hstep_pos : (0 : ℤ) < (Int.lcm acc p : ℤ) :=
      int_lcm_pos acc p (ne_of_gt ha) (ne_of_gt hppos)
    have hrest : ∀ y ∈ t, (0 : ℤ) < y := fun y hy => hp y (by simp [hy])
    have hfinal_pos :
        0 < t.foldl (fun lcm period => (Int.lcm lcm period : ℤ)) (Int.lcm acc p : ℤ) :=
      foldl_lcm_pos t _ hstep_pos hrest
    have hstep_le : (Int.lcm acc p : ℤ) ≤ 9223372036854775807 :=
      le_trans (Int.le_of_dvd hfinal_pos (init_dvd_foldl_lcm t _)) hb
    rw [i64lcm_eq_lcm acc p (le_of_lt ha) (le_of_lt hppos) hstep_le]
    exact foldl_i64lcm_eq t _ hstep_pos hrest hb

theorem windowsAll_eq_chain (p : RTTask → RTTask → Bool) :
    ∀ ts : List RTTask,
      RTUtils.windowsAll p ts = true ↔ List.Chain' (fun a b => p a b = true) ts
  | [] => by simp [RTUtils.windowsAll]
  | [a] => by simp [RTUtils.windowsAll]
  | a :: b :: l => by
    rw [List.chain'_cons, ← windowsAll_eq_chain p (b :: l)]
    simp [RTUtils.windowsAll]

/-! ## Serialization lemmas -/

theorem stripFacAux_spec :
    ∀ (fuel p n : ℕ), n ≤ fuel →
      n = (stripFacAux fuel p n).2 * p ^ (stripFacAux fuel p n).1
  | 0, p, n, h => by
    have hn : n = 0 := Nat.le_zero.mp h
    subst hn
    simp [stripFacAux]
  | fuel + 1, p, n, h => by
    rw [stripFacAux]
    split_ifs with hc
    · obtain ⟨hp, hd, hn⟩ := hc
      have hlt : n / p < n := Nat.div_lt_self (Nat.pos_of_ne_zero hn) hp
      have hrec := stripFacAux_spec fuel p (n / p) (by omega)
      simp only [pow_succ]
      calc n = (n / p) * p := (Nat.div_mul_cancel hd).symm
        _ = ((stripFacAux fuel p (n / p)).2 * p ^ (stripFacAux fuel p (n / p)).1) * p := by
            rw [← hrec]
        _ = (stripFacAux fuel p (n / p)).2 * (p ^ (stripFacAux fuel p (n / p)).1 * p) := by
            ring
    · simp

theorem stripFac_spec (p n : ℕ) : n = (stripFac p n).2 * p ^ (stripFac p n).1 :=
  stripFacAux_spec n p n le_rfl

theorem isDecimalDen_dvd (den : ℕ) (h : isDecimalDen den = true) :
    den ∣ 10 ^ decExp den := by
  rw [isDecimalDen, decide_eq_true_eq] at h
  have h2 := stripFac_spec 2 den
  have h5 := stripFac_spec 5 (stripFac 2 den).2
  rw [h] at h5
  rw [decExp]
  have hden : den = 2 ^ (stripFac 2 den).1 * 5 ^ (stripFac 5 (stripFac 2 den).2).1 := by
    calc den = (stripFac 2 den).2 * 2 ^ (stripFac 2 den).1 := h2
      _ = (1 * 5 ^ (stripFac 5 (stripFac 2 den).2).1) * 2 ^ (stripFac 2 den).1 := by
          rw [← h5]
      _ = 2 ^ (stripFac 2 den).1 * 5 ^ (stripFac 5 (stripFac 2 den).2).1 := by ring
  have h10 : (10 : ℕ) ^ max (stripFac 2 den).1 (stripFac 5 (stripFac 2 den).2).1
      = 2 ^ max (stripFac 2 den).1 (stripFac 5 (stripFac 2 den).2).1
        * 5 ^ max (stripFac 2 den).1 (stripFac 5 (stripFac 2 den).2).1 := by
    rw [← Nat.mul_pow]
  rw [h10]
  conv_lhs => rw [hden]
  exact Nat.mul_dvd_mul
    (Nat.pow_dvd_pow 2 (le_max_left _ _))
    (Nat.pow_dvd_pow 5 (le_max_right _ _))

theorem digitsValLE_natDigitsAux :
    ∀ (fuel n : ℕ), n ≤ fuel → digitsValLE (natDigitsAux fuel n) = n
  | 0, n, h => by
    have hn : n = 0 := Nat.le_zero.mp h
    subst hn
    rfl
  | fuel + 1, n, h => by
    rw [natDigitsAux]
    split_ifs with hn
    · simp [digitsValLE, hn]
    · have hlt : n / 10 < n := Nat.div_lt_self (Nat.pos_of_ne_zero hn) (by norm_num)
      rw [digitsValLE, digitsValLE_natDigitsAux fuel (n / 10) (by omega)]
      omega

theorem digitsValLE_natDigits (n : ℕ) : digitsValLE (natDigits n) = n :=
  digitsValLE_natDigitsAux n n le_rfl

theorem digitsValLE_replicate_zero : ∀ j : ℕ, digitsValLE (List.replicate j 0) = 0
  | 0 => rfl
  | j + 1 => by
    rw [List.replicate_succ, digitsValLE, digitsValLE_replicate_zero j]

theorem digitsValLE_append_zeros :
    ∀ (ds : List ℕ) (j : ℕ), digitsValLE (ds ++ List.replicate j 0) = digitsValLE ds
  | [], j => by simp [digitsValLE_replicate_zero j, digitsValLE]
  | d :: ds, j => by
    rw [List.cons_append, digitsValLE, digitsValLE_append_zeros ds j, digitsValLE]

theorem charDigit_digitChar : ∀ d, d < 10 → charDigit (digitChar d) = d := by decide

theorem isDigit_digitChar : ∀ d, d < 10 → (digitChar d).isDigit = true := by decide

theorem not_ws_digitChar : ∀ d, d < 10 → (digitChar d).isWhitespace = false := by decide

theorem natDigitsAux_lt : ∀ (fuel n : ℕ), ∀ d ∈ natDigitsAux fuel n, d < 10
  | 0, n => by simp [natDigitsAux]
  | fuel + 1, n => by
    rw [natDigitsAux]
    split_ifs with hn
    · simp
    · intro d hd
      rcases List.mem_cons.mp hd with h | h
      · subst h
        exact Nat.mod_lt _ (by norm_num)
      · exact natDigitsAux_lt fuel (n / 10) d h

theorem map_id_of_mem {f : ℕ → ℕ} :
    ∀ l : List ℕ, (∀ x ∈ l, f x = x) → l.map f = l
  | [], _ => rfl
  | x :: t, h => by
    rw [List.map_cons, h x (by simp), map_id_of_mem t (fun y hy => h y (by simp [hy]))]

theorem map_charDigit_renderNat (n : ℕ) :
    (renderNat n).map charDigit = (natDigits n).reverse := by
  rw [renderNat, List.map_map]
  exact map_id_of_mem _ (fun d hd =>
    charDigit_digitChar d (natDigitsAux_lt _ _ d (List.mem_reverse.mp hd)))

theorem parseDigits_padLeft (m n : ℕ) :
    parseDigits (padLeft m '0' (renderNat n)) = n := by
  rw [parseDigits, padLeft, List.map_append, List.map_replicate]
  have h0 : charDigit '0' = 0 := rfl
  rw [h0, map_charDigit_renderNat, List.reverse_append, List.reverse_replicate,
    List.reverse_reverse, digitsValLE_append_zeros, digitsValLE_natDigits]

theorem mem_padLeft_renderNat (m n : ℕ) (c : Char)
    (hc : c ∈ padLeft m '0' (renderNat n)) : ∃ d, d < 10 ∧ c = digitChar d := by
  rw [padLeft] at hc
  rcases List.mem_append.mp hc with h | h
  · have h0 := List.eq_of_mem_replicate h
    subst h0
    exact ⟨0, by norm_num, by decide⟩
  · rw [renderNat] at h
    rcases List.mem_map.mp h with ⟨d, hd, rfl⟩
    exact ⟨d, natDigitsAux_lt _ _ d (List.mem_reverse.mp hd), rfl⟩

theorem padLeft_all_digits (m n : ℕ) :
    ∀ c ∈ padLeft m '0' (renderNat n), c.isDigit = true := by
  intro c hc
  obtain ⟨d, hd, rfl⟩ := mem_padLeft_renderNat m n c hc
  exact isDigit_digitChar d hd

theorem length_padLeft (m : ℕ) (c : Char) (l : List Char) :
    m ≤ (padLeft m c l).length := by
  rw [padLeft, List.length_append, List.length_replicate]
  omega

theorem takeWhile_append_stop {p : Char → Bool} :
    ∀ (l1 : List Char) (x : Char) (l2 : List Char),
      (∀ c ∈ l1, p c = true) → p x = false →
      (l1 ++ x :: l2).takeWhile p = l1
  | [], x, l2, _, hx => by simp [List.takeWhile_cons, hx]
  | c :: t, x, l2, h, hx => by
    have hc : p c = true := h c (by simp)
    rw [List.cons_append, List.takeWhile_cons, hc]
    simp only [if_pos]
    rw [takeWhile_append_stop t x l2 (fun y hy => h y (by simp [hy])) hx]

theorem dropWhile_append_stop {p : Char → Bool} :
    ∀ (l1 : List Char) (x : Char) (l2 : List Char),
      (∀ c ∈ l1, p c = true) → p x = false →
      (l1 ++ x :: l2).dropWhile p = x :: l2
  | [], x, l2, _, hx => by simp [List.dropWhile_cons, hx]
  | c :: t, x, l2, h, hx => by
    have hc : p c = true := h c (by simp)
    rw [List.cons_append, List.dropWhile_cons, hc]
    simp only [if_pos]
    rw [dropWhile_append_stop t x l2 (fun y hy => h y (by simp [hy])) hx]

theorem isEmpty_false_of_le_length {l : List Char} (h : 1 ≤ l.length) :
    l.isEmpty = false := by
  rcases hemp : l.isEmpty with _ | _
  · rfl
  · rw [List.isEmpty_iff.mp hemp] at h
    simp at h

theorem parseUnsigned_renderUnsigned (n k : ℕ) :
    parseUnsigned (renderUnsigned n k) = some (mkRat n (10 ^ k)) := by
  rcases Nat.eq_zero_or_pos k with hk | hk
  · subst hk
    have hru : renderUnsigned n 0 = padLeft 1 '0' (renderNat n) := by
      simp [renderUnsigned]
    have hall := padLeft_all_digits 1 n
    have ht : (padLeft 1 '0' (renderNat n)).takeWhile Char.isDigit
        = padLeft 1 '0' (renderNat n) := List.takeWhile_eq_self_iff.mpr hall
    have hd : (padLeft 1 '0' (renderNat n)).dropWhile Char.isDigit = [] :=
      List.dropWhile_eq_nil_iff.mpr hall
    have hne : (padLeft 1 '0' (renderNat n)).isEmpty = false :=
      isEmpty_false_of_le_length (length_padLeft 1 '0' (renderNat n))
    rw [hru, parseUnsigned, ht, hd]
    dsimp only
    simp only [hne, Bool.false_eq_true, if_neg]
    rw [parseDigits_padLeft 1 n, pow_zero, Rat.mkRat_one]
    norm_num
  · have hk0 : k ≠ 0 := Nat.pos_iff_ne_zero.mp hk
    have hru : renderUnsigned n k
        = (padLeft (k + 1) '0' (renderNat n)).take
            ((padLeft (k + 1) '0' (renderNat n)).length - k)
          ++ '.' :: (padLeft (k + 1) '0' (renderNat n)).drop
            ((padLeft (k + 1) '0' (renderNat n)).length - k) := by
      rw [renderUnsigned, if_neg hk0]
    have hall := padLeft_all_digits (k + 1) n
    have hlen := length_padLeft (k + 1) '0' (renderNat n)
    have hipall : ∀ c ∈ (padLeft (k + 1) '0' (renderNat n)).take
        ((padLeft (k + 1) '0' (renderNat n)).length - k), c.isDigit = true :=
      fun c hc => hall c (List.take_subset _ _ hc)
    have hfpall : ∀ c ∈ (padLeft (k + 1) '0' (renderNat n)).drop
        ((padLeft (k + 1) '0' (renderNat n)).length - k), c.isDigit = true :=
      fun c hc => hall c (List.drop_subset _ _ hc)
    have hdot : ('.' : Char).isDigit = false := by decide
    have hfplen : ((padLeft (k + 1) '0' (renderNat n)).drop
        ((padLeft (k + 1) '0' (renderNat n)).length - k)).length = k := by
      rw [List.length_drop]
      omega
    rw [hru, parseUnsigned, takeWhile_append_stop _ _ _ hipall hdot,
      dropWhile_append_stop _ _ _ hipall hdot]
    dsimp only
    have hcond : ('.' : Char) = '.'
        ∧ ((padLeft (k + 1) '0' (renderNat n)).drop
            ((padLeft (k + 1) '0' (renderNat n)).length - k)).all Char.isDigit = true
        ∧ ((padLeft (k + 1) '0' (renderNat n)).take
            ((padLeft (k + 1) '0' (renderNat n)).length - k) ≠ []
          ∨ (padLeft (k + 1) '0' (renderNat n)).drop
              ((padLeft (k + 1) '0' (renderNat n)).length - k) ≠ []) := by
      refine ⟨rfl, ?_, ?_⟩
      · rw [List.all_eq_true]
        exact hfpall
      · right
        intro hnil
        rw [hnil] at hfplen
        simp at hfplen
        omega
    rw [if_pos hcond, List.take_append_drop, parseDigits_padLeft, hfplen]

theorem renderUnsigned_cons (n k : ℕ) :
    ∃ c t, renderUnsigned n k = c :: t ∧ c.isDigit = true := by
  rw [renderUnsigned]
  have hall := padLeft_all_digits (k + 1) n
  rcases Nat.eq_zero_or_pos k with hk | hk
  · subst hk
    simp only [if_pos rfl]
    rcases hds : padLeft 1 '0' (renderNat n) with _ | ⟨c, t⟩
    · have := length_padLeft 1 '0' (renderNat n)
      rw [hds] at this
      simp at this
    · exact ⟨c, t, rfl, hall c (by rw [hds]; simp)⟩
  · have hk0 : k ≠ 0 := Nat.pos_iff_ne_zero.mp hk
    simp only [if_neg hk0]
    have hlen := length_padLeft (k + 1) '0' (renderNat n)
    have htlen : ((padLeft (k + 1) '0' (renderNat n)).take
        ((padLeft (k + 1) '0' (renderNat n)).length - k)).length
        = (padLeft (k + 1) '0' (renderNat n)).length - k := by
      rw [List.length_take]
      omega
    rcases hds : (padLeft (k + 1) '0' (renderNat n)).take
        ((padLeft (k + 1) '0' (renderNat n)).length - k) with _ | ⟨c, t⟩
    · rw [hds] at htlen
      simp at htlen
      omega
    · refine ⟨c, t ++ '.' :: (padLeft (k + 1) '0' (renderNat n)).drop
        ((padLeft (k + 1) '0' (renderNat n)).length - k), ?_, ?_⟩
      · exact List.cons_append c t _
      have hcmem : c ∈ padLeft (k + 1) '0' (renderNat n) :=
        List.take_subset _ _ (by rw [hds]; simp)
      exact hall c hcmem

theorem parseNum_cons_of_digit {c : Char} (t : List Char) (hc : c.isDigit = true) :
    parseNum (c :: t) = parseUnsigned (c :: t) := by
  have h1 : c ≠ '-' := by
    intro he
    subst he
    exact absurd hc (by decide)
  have h2 : c ≠ '+' := by
    intro he
    subst he
    exact absurd hc (by decide)
  rw [parseNum, if_neg h1, if_neg h2]

theorem mkRat_abs (q : ℚ) (k : ℕ) (hdvd : q.den ∣ 10 ^ k) :
    mkRat (q.num.natAbs * 10 ^ k / q.den : ℕ) (10 ^ k) = |q| := by
  have hden0 : ((q.den : ℕ) : ℚ) ≠ 0 := by
    exact_mod_cast q.den_nz
  have h10 : ((10 : ℚ)) ^ k ≠ 0 := by positivity
  have hd2 : (q.den : ℕ) ∣ q.num.natAbs * 10 ^ k := Dvd.dvd.mul_left hdvd q.num.natAbs
  have habs : |q| = ((q.num.natAbs : ℕ) : ℚ) / ((q.den : ℕ) : ℚ) := by
    conv_lhs => rw [← Rat.num_div_den q]
    have hdp : (0 : ℚ) < ((q.den : ℕ) : ℚ) := by exact_mod_cast q.den_pos
    rw [abs_div, Nat.cast_natAbs]
    congr 1
    · exact Int.cast_abs.symm
    · exact abs_of_pos hdp
  rw [Rat.mkRat_eq_div, Int.cast_natCast, Nat.cast_div hd2 hden0, habs]
  rw [Nat.cast_mul, Nat.cast_pow]
  push_cast
  field_simp
  ring

theorem parseNum_ratRender (q : ℚ) (h : isDecimalDen q.den = true) :
    parseNum (ratRender q) = some q := by
  have hdvd : q.den ∣ 10 ^ decExp q.den := isDecimalDen_dvd q.den h
  have hmk : mkRat (q.num.natAbs * 10 ^ decExp q.den / q.den : ℕ) (10 ^ decExp q.den)
      = |q| := mkRat_abs q (decExp q.den) hdvd
  rcases lt_or_ge q.num 0 with hneg | hpos
  · have hq : q < 0 := by
      rw [← Rat.num_neg]
      exact hneg
    have hrr : ratRender q
        = '-' :: renderUnsigned (q.num.natAbs * 10 ^ decExp q.den / q.den) (decExp q.den) := by
      rw [ratRender, if_pos hneg]
      rfl
    rw [hrr, parseNum, if_pos rfl, parseUnsigned_renderUnsigned, Option.map_some', hmk,
      abs_of_neg hq, neg_neg]
  · have hq : 0 ≤ q := by
      rw [← Rat.num_nonneg]
      exact hpos
    have hrr : ratRender q
        = renderUnsigned (q.num.natAbs * 10 ^ decExp q.den / q.den) (decExp q.den) := by
      rw [ratRender, if_neg (not_lt.mpr hpos)]
      rfl
    obtain ⟨c, t, hct, hc⟩ :=
      renderUnsigned_cons (q.num.natAbs * 10 ^ decExp q.den / q.den) (decExp q.den)
    rw [hrr, hct, parseNum_cons_of_digit t hc, ← hct, parseUnsigned_renderUnsigned, hmk,
      abs_of_nonneg hq]

theorem mem_renderUnsigned (n k : ℕ) (c : Char) (h : c ∈ renderUnsigned n k) :
    c = '.' ∨ ∃ d, d < 10 ∧ c = digitChar d := by
  rw [renderUnsigned] at h
  split_ifs at h with hk
  · right
    exact mem_padLeft_renderNat _ _ c h
  · rcases List.mem_append.mp h with h1 | h1
    · right
      exact mem_padLeft_renderNat _ _ c (List.take_subset _ _ h1)
    · rcases List.mem_cons.mp h1 with h2 | h2
      · left
        exact h2
      · right
        exact mem_padLeft_renderNat _ _ c (List.drop_subset _ _ h2)

theorem mem_ratRender_noWs (q : ℚ) : ∀ c ∈ ratRender q, c.isWhitespace = false := by
  intro c hc
  rw [ratRender] at hc
  rcases List.mem_append.mp hc with h | h
  · split_ifs at h
    · have := List.mem_singleton.mp h
      subst this
      decide
    · simp at h
  · rcases mem_renderUnsigned _ _ c h with h1 | ⟨d, hd, h1⟩
    · subst h1
      decide
    · subst h1
      exact not_ws_digitChar d hd

theorem ratRender_cons (q : ℚ) : ∃ c t, ratRender q = c :: t := by
  obtain ⟨c, t, hct, _⟩ :=
    renderUnsigned_cons (q.num.natAbs * 10 ^ decExp q.den / q.den) (decExp q.den)
  rw [ratRender]
  split_ifs with hs
  · exact ⟨'-', renderUnsigned (q.num.natAbs * 10 ^ decExp q.den / q.den) (decExp q.den),
      rfl⟩
  · exact ⟨c, t, by rw [List.nil_append, hct]⟩

theorem dropWhile_eq_self_of_head {p : Char → Bool} {cs : List Char} {c : Char}
    (h : cs.head? = some c) (hp : p c = false) : cs.dropWhile p = cs := by
  cases cs with
  | nil => rfl
  | cons x t =>
    rw [List.head?_cons] at h
    obtain rfl := Option.some.inj h
    rw [List.dropWhile_cons, hp]
    simp

theorem trimChars_eq_self {cs : List Char} {c d : Char} (h1 : cs.head? = some c)
    (hc : c.isWhitespace = false) (h2 : cs.getLast? = some d)
    (hd : d.isWhitespace = false) : trimChars cs = cs := by
  rw [trimChars, dropWhile_eq_self_of_head h1 hc,
    dropWhile_eq_self_of_head (by rw [List.head?_reverse]; exact h2) hd,
    List.reverse_reverse]

theorem splitWsAux_chomp (w : List Char) (hw : ∀ c ∈ w, c.isWhitespace = false) :
    ∀ (cs acc : List Char), splitWsAux (w ++ cs) acc = splitWsAux cs (w.reverse ++ acc) := by
  induction w with
  | nil => intro cs acc; simp
  | cons c t ih =>
    intro cs acc
    have hc : c.isWhitespace = false := hw c (by simp)
    rw [List.cons_append, splitWsAux, hc]
    simp only [Bool.false_eq_true, if_neg]
    rw [ih (fun y hy => hw y (by simp [hy])) cs (c :: acc)]
    simp

theorem isEmpty_reverse_ne_nil {w : List Char} (h : w ≠ []) :
    w.reverse.isEmpty = false := by
  rcases hemp : w.reverse.isEmpty with _ | _
  · rfl
  · exact absurd (List.reverse_eq_nil_iff.mp (List.isEmpty_iff.mp hemp)) h

theorem splitWsAux_single (w : List Char) (hw : ∀ c ∈ w, c.isWhitespace = false)
    (hne : w ≠ []) : splitWsAux w [] = [w] := by
  have h := splitWsAux_chomp w hw [] []
  rw [List.append_nil] at h
  rw [h, List.append_nil, splitWsAux]
  rw [if_neg (by rw [isEmpty_reverse_ne_nil hne]; exact Bool.false_ne_true)]
  rw [List.reverse_reverse]

theorem splitWs_two_words (w1 w2 : List Char) (h1 : w1 ≠ []) (h2 : w2 ≠ [])
    (hw1 : ∀ c ∈ w1, c.isWhitespace = false) (hw2 : ∀ c ∈ w2, c.isWhitespace = false) :
    splitWs (w1 ++ ' ' :: w2) = [w1, w2] := by
  rw [splitWs, splitWsAux_chomp w1 hw1 (' ' :: w2) [], List.append_nil, splitWsAux]
  rw [if_pos (by decide)]
  rw [if_neg (by rw [isEmpty_reverse_ne_nil h1]; exact Bool.false_ne_true)]
  rw [List.reverse_reverse, splitWsAux_single w2 hw2 h2]

/-! ## Claims -/

/-- C1: two `Time`s are equal exactly when the absolute difference of their
nanosecond values is strictly below 0.5; `nanos 1000.0 == nanos 1000.4`
holds while `nanos 1000.0 == nanos 1000.6` does not. -/
theorem C1_tolerant_equality :
    (∀ a b : Time, Time.eq a b = true ↔ |a.value_ns - b.value_ns| < (0.5 : ℚ))
    ∧ Time.eq (Time.nanos 1000.0) (Time.nanos 1000.4) = true
    ∧ Time.eq (Time.nanos 1000.0) (Time.nanos 1000.6) = false := by
  refine ⟨fun a b => ?_, ?_, ?_⟩
  · rw [Time.eq, decide_eq_true_eq, ratAbs_eq_abs]
    norm_num [Time.error]
  · norm_num [Time.eq, ratAbs, Time.error, Time.nanos]
  · norm_num [Time.eq, ratAbs, Time.error, Time.nanos]

/-- C5: the sortedness checks hold exactly when every adjacent pair is
related by the `Time` ordering `<=` on the respective field, hold
trivially on 0- or 1-element tasksets, periods `[5,5,10]` are sorted and
`[10,5]` are not. -/
theorem C5_sortedness :
    (∀ ts : List RTTask, RTUtils.is_taskset_sorted_by_period ts = true ↔
      List.Chain' (fun a b : RTTask => Time.le a.period b.period = true) ts)
    ∧ (∀ ts : List RTTask, RTUtils.is_taskset_sorted_by_deadline ts = true ↔
      List.Chain' (fun a b : RTTask => Time.le a.deadline b.deadline = true) ts)
    ∧ RTUtils.is_taskset_sorted_by_period [] = true
    ∧ RTUtils.is_taskset_sorted_by_deadline [] = true
    ∧ (∀ t : RTTask, RTUtils.is_taskset_sorted_by_period [t] = true)
    ∧ (∀ t : RTTask, RTUtils.is_taskset_sorted_by_deadline [t] = true)
    ∧ RTUtils.is_taskset_sorted_by_period
        [⟨⟨1⟩, ⟨5⟩, ⟨5⟩⟩, ⟨⟨1⟩, ⟨5⟩, ⟨5⟩⟩, ⟨⟨1⟩, ⟨10⟩, ⟨10⟩⟩] = true
    ∧ RTUtils.is_taskset_sorted_by_period [⟨⟨1⟩, ⟨10⟩, ⟨10⟩⟩, ⟨⟨1⟩, ⟨5⟩, ⟨5⟩⟩] = false := by
  refine ⟨fun ts => windowsAll_eq_chain _ ts, fun ts => windowsAll_eq_chain _ ts,
    by decide, by decide, ?_, ?_, by decide, by decide⟩
  · intro t
    simp [RTUtils.is_taskset_sorted_by_period, RTUtils.windowsAll]
  · intro t
    simp [RTUtils.is_taskset_sorted_by_deadline, RTUtils.windowsAll]

/-- C2: serialization emits the string `"<nanosecond-value> ns"` with the
raw nanosecond value, and deserializing it gives back a tolerantly equal
duration.  The hypothesis restricts to values whose reduced denominator
divides a power of ten, which holds for every finite IEEE double. -/
theorem C2_serialize_roundtrip (d : Time) (h : isDecimalDen d.value_ns.den = true) :
    (Time.serialize d).data = ratRender d.value_ns ++ [' ', 'n', 's']
    ∧ parseNum (ratRender d.value_ns) = some d.value_ns
    ∧ ∃ d' : Time, Time.deserialize (Time.serialize d) = Except.ok d'
        ∧ Time.eq d' d = true := by
  have hparse := parseNum_ratRender d.value_ns h
  have hnoWs := mem_ratRender_noWs d.value_ns
  obtain ⟨c, t, hct⟩ := ratRender_cons d.value_ns
  have hw1ne : ratRender d.value_ns ≠ [] := by rw [hct]; simp
  have hdata : (Time.serialize d).data = ratRender d.value_ns ++ ' ' :: ['n', 's'] := rfl
  have htrim : trimChars ((Time.serialize d).data)
      = ratRender d.value_ns ++ ' ' :: ['n', 's'] := by
    rw [hdata]
    have hh1 : (ratRender d.value_ns ++ ' ' :: ['n', 's']).head? = some c := by
      rw [hct, List.cons_append, List.head?_cons]
    have hhc : c.isWhitespace = false := hnoWs c (by rw [hct]; simp)
    have hh2 : (ratRender d.value_ns ++ ' ' :: ['n', 's']).getLast? = some 's' := by
      have hre : ratRender d.value_ns ++ ' ' :: ['n', 's']
          = (ratRender d.value_ns ++ [' ', 'n']) ++ ['s'] := by simp
      rw [hre, List.getLast?_concat]
    exact trimChars_eq_self hh1 hhc hh2 (by decide)
  have hsplit : splitWs (trimChars ((Time.serialize d).data))
      = [ratRender d.value_ns, ['n', 's']] := by
    rw [htrim]
    exact splitWs_two_words _ _ hw1ne (by simp) hnoWs (by decide)
  refine ⟨rfl, hparse, ⟨Time.nanos (d.value_ns * 1), ?_, ?_⟩⟩
  · show deserializeTokens (splitWs (trimChars ((Time.serialize d).data)))
      = Except.ok (Time.nanos (d.value_ns * 1))
    rw [hsplit]
    simp [deserializeTokens, hparse, unitFactor]
  · norm_num [Time.eq, Time.nanos, ratAbs, Time.error]

/-- C2 witness: the round trip at the concrete duration 2.5 ns. -/
theorem C2_serialize_roundtrip_witness :
    isDecimalDen (Time.mk (mkRat 5 2)).value_ns.den = true
    ∧ ((Time.serialize ⟨mkRat 5 2⟩).data = ratRender (Time.mk (mkRat 5 2)).value_ns
          ++ [' ', 'n', 's']
      ∧ parseNum (ratRender (Time.mk (mkRat 5 2)).value_ns)
          = some (Time.mk (mkRat 5 2)).value_ns
      ∧ ∃ d' : Time, Time.deserialize (Time.serialize ⟨mkRat 5 2⟩) = Except.ok d'
          ∧ Time.eq d' ⟨mkRat 5 2⟩ = true) :=
  ⟨by decide, C2_serialize_roundtrip ⟨mkRat 5 2⟩ (by decide)⟩

/-- C3: deserialization accepts exactly the one-token (bare nanoseconds)
and two-token (value and unit) shapes, with the unit table
`s/ms/us/ns → 1e9/1e6/1e3/1`, a malformed number error, a distinct
unknown-unit error, and a distinct format error for any other token
count. -/
theorem C3_deserialize_cases :
    (∀ t : List Char, deserializeTokens [t] =
      match parseNum t with
      | some time => Except.ok ⟨time⟩
      | none => Except.error DeError.invalidTime)
    ∧ (∀ t u : List Char, deserializeTokens [t, u] =
      match parseNum t, unitFactor u with
      | none, _ => Except.error DeError.invalidTime
      | some time, some unit => Except.ok (Time.nanos (time * unit))
      | some _, none => Except.error (DeError.unknownUnit u))
    ∧ deserializeTokens [] = Except.error DeError.unknownFormat
    ∧ (∀ (t u v : List Char) (rest : List (List Char)),
        deserializeTokens (t :: u :: v :: rest) = Except.error DeError.unknownFormat)
    ∧ unitFactor ['s'] = some 1000000000
    ∧ unitFactor ['m', 's'] = some 1000000
    ∧ unitFactor ['u', 's'] = some 1000
    ∧ unitFactor ['n', 's'] = some 1
    ∧ Time.deserialize "abc" = Except.error DeError.invalidTime
    ∧ Time.deserialize "5 foo" = Except.error (DeError.unknownUnit ['f', 'o', 'o'])
    ∧ Time.deserialize "5 ms extra" = Except.error DeError.unknownFormat
    ∧ Time.deserialize "" = Except.error DeError.unknownFormat
    ∧ DeError.invalidTime ≠ DeError.unknownFormat
    ∧ (∀ u, DeError.invalidTime ≠ DeError.unknownUnit u)
    ∧ (∀ u, DeError.unknownUnit u ≠ DeError.unknownFormat) := by
  refine ⟨?_, ?_, rfl, fun t u v rest => rfl, rfl, rfl, rfl, rfl,
    by decide, by decide, by decide, by decide, by decide,
    fun u hu => DeError.noConfusion hu, fun u hu => DeError.noConfusion hu⟩
  · intro t
    cases hp : parseNum t <;> simp [deserializeTokens, hp]
  · intro t u
    cases hp : parseNum t <;> cases hu : unitFactor u <;>
      simp [deserializeTokens, hp, hu]

/-- C4 counterexample: the fold runs on `i64`, so two coprime periods of
about 4 seconds overflow; the program returns the wrapped value
2446744057709551613 ns, not the least common multiple
16000000016000000003 ns.  The claim's universal lcm statement is false on
the code. -/
theorem C4_hyperperiod_counterexample :
    (RTUtils.hyperperiod [RTTask.new_ns 1 4000000001 4000000001,
        RTTask.new_ns 1 4000000003 4000000003]).value_ns
      = ((2446744057709551613 : ℤ) : ℚ)
    ∧ (RTUtils.hyperperiod [RTTask.new_ns 1 4000000001 4000000001,
        RTTask.new_ns 1 4000000003 4000000003]).value_ns
      ≠ ((([RTTask.new_ns 1 4000000001 4000000001,
            RTTask.new_ns 1 4000000003 4000000003].map
          fun task => ⌊task.period.value_ns⌋).foldl
          (fun lcm period => (Int.lcm lcm period : ℤ)) 1 : ℤ) : ℚ) := by
  constructor
  · decide
  · decide

/-- C4 (amended): whenever every floored period is a positive `i64` value
and the true lcm fold stays within `i64::MAX` (so no overflow or
saturation occurs), `hyperperiod` is the lcm fold over the floored periods
with accumulator 1 and every floored period divides it; the empty taskset
yields 1 ns and periods 2000 ns and 3000 ns yield 6000 ns. -/
theorem C4_hyperperiod_amended :
    (∀ ts : List RTTask,
      (∀ t ∈ ts, 0 < ⌊t.period.value_ns⌋
        ∧ ⌊t.period.value_ns⌋ ≤ 9223372036854775807) →
      (ts.map fun task => ⌊task.period.value_ns⌋).foldl
          (fun lcm period => (Int.lcm lcm period : ℤ)) 1 ≤ 9223372036854775807 →
      ((RTUtils.hyperperiod ts).value_ns =
        (((ts.map fun task => ⌊task.period.value_ns⌋).foldl
          (fun lcm period => (Int.lcm lcm period : ℤ)) 1 : ℤ) : ℚ)
      ∧ ∀ t ∈ ts, ⌊t.period.value_ns⌋ ∣ ⌊(RTUtils.hyperperiod ts).value_ns⌋))
    ∧ RTUtils.hyperperiod [] = Time.nanos 1
    ∧ RTUtils.hyperperiod [RTTask.new_ns 1 2000 2000, RTTask.new_ns 1 3000 3000]
        = Time.nanos 6000 := by
  refine ⟨fun ts hp hbound => ?_, by decide, by decide⟩
  have hmem : ∀ p ∈ ts.map fun task => ⌊task.period.value_ns⌋, (0 : ℤ) < p := by
    intro p hpm
    obtain ⟨t, ht, rfl⟩ := List.mem_map.mp hpm
    exact (hp t ht).1
  have hmap : (ts.map fun task => satCast64 ⌊task.period.value_ns⌋)
      = ts.map fun task => ⌊task.period.value_ns⌋ :=
    List.map_congr_left (fun t ht =>
      satCast64_eq_self _ (by have := (hp t ht).1; omega) (hp t ht).2)
  have hval : (RTUtils.hyperperiod ts).value_ns =
      (((ts.map fun task => ⌊task.period.value_ns⌋).foldl
        (fun lcm period => (Int.lcm lcm period : ℤ)) 1 : ℤ) : ℚ) := by
    show (((ts.map fun task => satCast64 ⌊task.period.value_ns⌋).foldl
        (fun lcm period => i64lcm lcm period) 1 : ℤ) : ℚ) = _
    rw [hmap, foldl_i64lcm_eq _ 1 one_pos hmem hbound]
  refine ⟨hval, fun t ht => ?_⟩
  rw [hval, Int.floor_intCast]
  exact mem_dvd_foldl_lcm _ 1 _ (List.mem_map_of_mem _ ht)

/-- C4 witness: the amended theorem applied to the in-range example
taskset with periods 2000 ns and 3000 ns. -/
theorem C4_hyperperiod_amended_witness :
    (RTUtils.hyperperiod [RTTask.new_ns 1 2000 2000,
        RTTask.new_ns 1 3000 3000]).value_ns =
      ((([RTTask.new_ns 1 2000 2000, RTTask.new_ns 1 3000 3000].map
        fun task => ⌊task.period.value_ns⌋).foldl
        (fun lcm period => (Int.lcm lcm period : ℤ)) 1 : ℤ) : ℚ)
    ∧ ∀ t ∈ [RTTask.new_ns 1 2000 2000, RTTask.new_ns 1 3000 3000],
        ⌊t.period.value_ns⌋
          ∣ ⌊(RTUtils.hyperperiod [RTTask.new_ns 1 2000 2000,
              RTTask.new_ns 1 3000 3000]).value_ns⌋ :=
  C4_hyperperiod_amended.1 _ (by decide) (by decide)

/-- C6: the remainder of two durations is the truncating integer remainder
of the floored nanosecond values, whenever the floored divisor is nonzero
(a zero floored divisor produces NaN in the IEEE code and lies outside the
exact model). -/
theorem C6_rem_floored_tmod (a b : Time) (h : ⌊b.value_ns⌋ ≠ (0 : ℤ)) :
    (Time.rem a b).value_ns = ((Int.tmod ⌊a.value_ns⌋ ⌊b.value_ns⌋ : ℤ) : ℚ) := by
  rw [Time.rem, fRem_intCast]

/-- C6 witness: `rem` at 7 ns and 3 ns. -/
theorem C6_rem_floored_tmod_witness :
    ⌊(Time.nanos 3).value_ns⌋ ≠ (0 : ℤ)
    ∧ (Time.rem (Time.nanos 7) (Time.nanos 3)).value_ns
      = ((Int.tmod ⌊(Time.nanos 7).value_ns⌋ ⌊(Time.nanos 3).value_ns⌋ : ℤ) : ℚ) :=
  ⟨by decide, C6_rem_floored_tmod _ _ (by decide)⟩

/-- C9: a task with deadline 10.4 ns and period 10.0 ns has an implicit
deadline (tolerant equality) but not a constrained deadline (exact
ordering). -/
theorem C9_implicit_without_constrained :
    ∃ t : RTTask, t.has_implicit_deadline = true ∧ t.has_constrained_deadline = false := by
  refine ⟨⟨⟨1⟩, ⟨10.4⟩, ⟨10.0⟩⟩, ?_, ?_⟩
  · norm_num [RTTask.has_implicit_deadline, Time.eq, ratAbs, Time.error]
  · norm_num [RTTask.has_constrained_deadline, Time.le, Time.cmp]

/-- C7: the product of two durations is a squared duration (`Time.mul`
returns a `Time2`), and whenever `a == b` holds tolerantly and both are
non-negative, the square root of the product is tolerantly equal to `a`. -/
theorem C7_sqrt_of_product (a b : Time) (hab : Time.eq a b = true)
    (ha : 0 ≤ a.value_ns) (hb : 0 ≤ b.value_ns) :
    |Time2.sqrt (Time.mul a b) - (a.value_ns : ℝ)| < ((Time.error : ℚ) : ℝ) := by
  have herr : ((Time.error : ℚ) : ℝ) = 1/2 := by norm_num [Time.error]
  rw [herr]
  have hx : (0 : ℝ) ≤ (a.value_ns : ℝ) := by exact_mod_cast ha
  have hy : (0 : ℝ) ≤ (b.value_ns : ℝ) := by exact_mod_cast hb
  have hd : |(a.value_ns : ℝ) - (b.value_ns : ℝ)| < 1/2 := by
    rw [Time.eq, decide_eq_true_eq, ratAbs_eq_abs, Time.error] at hab
    have hc : ((|a.value_ns - b.value_ns| : ℚ) : ℝ) < ((1/2 : ℚ) : ℝ) := by
      exact_mod_cast hab
    push_cast at hc
    exact hc
  have hs0 : 0 ≤ Time2.sqrt (Time.mul a b) := Real.sqrt_nonneg _
  have hs2 : Time2.sqrt (Time.mul a b) ^ 2 = (a.value_ns : ℝ) * (b.value_ns : ℝ) := by
    rw [Time2.sqrt, Time.mul]
    push_cast
    exact Real.sq_sqrt (mul_nonneg hx hy)
  rw [abs_lt] at hd ⊢
  obtain ⟨hd1, hd2⟩ := hd
  constructor
  · nlinarith [hs0, hs2, hx, hy]
  · nlinarith [hs0, hs2, hx, hy, mul_nonneg hx hy]

/-- C7 witness: instantiated at `a = b = 0 ns`. -/
theorem C7_sqrt_of_product_witness :
    |Time2.sqrt (Time.mul (Time.nanos 0) (Time.nanos 0)) - ((Time.nanos 0).value_ns : ℝ)|
      < ((Time.error : ℚ) : ℝ) :=
  C7_sqrt_of_product _ _ (by norm_num [Time.eq, ratAbs, Time.error, Time.nanos])
    (le_refl 0) (le_refl 0)

/-- C8: under the IEEE-specials-aware model, dividing a `Time` by a zero
`Time` (and utilization/density with zero period/deadline) yields an
infinity or NaN, never a failure; the square root of a negative `Time2`
yields NaN; and every operation outside deserialization is a total
function that yields a value for every input (totality by typing). -/
theorem C8_ieee_totality :
    (∀ a b : Time, b.value_ns = 0 →
      Time.div_ieee a b = F64.posInf ∨ Time.div_ieee a b = F64.negInf
        ∨ Time.div_ieee a b = F64.nan)
    ∧ (∀ t : RTTask, t.period.value_ns = 0 →
      t.utilization_ieee = F64.posInf ∨ t.utilization_ieee = F64.negInf
        ∨ t.utilization_ieee = F64.nan)
    ∧ (∀ t : RTTask, t.deadline.value_ns = 0 →
      t.density_ieee = F64.posInf ∨ t.density_ieee = F64.negInf
        ∨ t.density_ieee = F64.nan)
    ∧ (∀ t : Time2, t.value_ns_2 < 0 → Time2.sqrt_ieee t = F64.nan)
    ∧ (∀ a b : Time, ∃ v : F64 ℚ, Time.div_ieee a b = v)
    ∧ (∀ a b : Time, ∃ v : Time, Time.rem a b = v)
    ∧ (∀ t : Time2, ∃ v : F64 ℝ, Time2.sqrt_ieee t = v)
    ∧ (∀ ts : List RTTask, ∃ v : Time, RTUtils.hyperperiod ts = v) := by
  have hdiv : ∀ x y : ℚ, y = 0 →
      f64div x y = F64.posInf ∨ f64div x y = F64.negInf ∨ f64div x y = F64.nan := by
    intro x y hy
    rw [f64div, if_pos hy]
    split_ifs <;> simp
  refine ⟨fun a b hb => hdiv _ _ hb, fun t ht => hdiv _ _ ht, fun t ht => hdiv _ _ ht,
    fun t ht => ?_, fun a b => ⟨_, rfl⟩, fun a b => ⟨_, rfl⟩,
    fun t => ⟨_, rfl⟩, fun ts => ⟨_, rfl⟩⟩
  rw [Time2.sqrt_ieee, if_pos ht]

/-- C8 witness: `1 ns / 0 ns`, utilization and density with a zero
period/deadline, and the square root of `-1 ns²`. -/
theorem C8_ieee_totality_witness :
    ((Time.nanos 0).value_ns = 0
      ∧ (Time.div_ieee (Time.nanos 1) (Time.nanos 0) = F64.posInf
        ∨ Time.div_ieee (Time.nanos 1) (Time.nanos 0) = F64.negInf
        ∨ Time.div_ieee (Time.nanos 1) (Time.nanos 0) = F64.nan))
    ∧ ((RTTask.mk ⟨1⟩ ⟨1⟩ ⟨0⟩).period.value_ns = 0
      ∧ ((RTTask.mk ⟨1⟩ ⟨1⟩ ⟨0⟩).utilization_ieee = F64.posInf
        ∨ (RTTask.mk ⟨1⟩ ⟨1⟩ ⟨0⟩).utilization_ieee = F64.negInf
        ∨ (RTTask.mk ⟨1⟩ ⟨1⟩ ⟨0⟩).utilization_ieee = F64.nan))
    ∧ ((RTTask.mk ⟨1⟩ ⟨0⟩ ⟨1⟩).deadline.value_ns = 0
      ∧ ((RTTask.mk ⟨1⟩ ⟨0⟩ ⟨1⟩).density_ieee = F64.posInf
        ∨ (RTTask.mk ⟨1⟩ ⟨0⟩ ⟨1⟩).density_ieee = F64.negInf
        ∨ (RTTask.mk ⟨1⟩ ⟨0⟩ ⟨1⟩).density_ieee = F64.nan))
    ∧ ((Time2.mk (-1)).value_ns_2 < 0
      ∧ Time2.sqrt_ieee ⟨-1⟩ = F64.nan) :=
  ⟨⟨rfl, C8_ieee_totality.1 (Time.nanos 1) (Time.nanos 0) rfl⟩,
    ⟨rfl, C8_ieee_totality.2.1 (RTTask.mk ⟨1⟩ ⟨1⟩ ⟨0⟩) rfl⟩,
    ⟨rfl, C8_ieee_totality.2.2.1 (RTTask.mk ⟨1⟩ ⟨0⟩ ⟨1⟩) rfl⟩,
    ⟨by norm_num, C8_ieee_totality.2.2.2.1 ⟨-1⟩ (by norm_num)⟩⟩

/-- C10: the tolerant equality is not transitive: 0.0 == 0.4 and
0.4 == 0.8 but 0.0 != 0.8. -/
theorem C10_eq_not_transitive :
    Time.eq (Time.nanos 0.0) (Time.nanos 0.4) = true
    ∧ Time.eq (Time.nanos 0.4) (Time.nanos 0.8) = true
    ∧ Time.eq (Time.nanos 0.0) (Time.nanos 0.8) = false
    ∧ ¬ Transitive (fun a b : Time => Time.eq a b = true) := by
  have h1 : Time.eq (Time.nanos 0.0) (Time.nanos 0.4) = true := by
    norm_num [Time.eq, ratAbs, Time.error, Time.nanos]
  have h2 : Time.eq (Time.nanos 0.4) (Time.nanos 0.8) = true := by
    norm_num [Time.eq, ratAbs, Time.error, Time.nanos]
  have h3 : Time.eq (Time.nanos 0.0) (Time.nanos 0.8) = false := by
    norm_num [Time.eq, ratAbs, Time.error, Time.nanos]
  refine ⟨h1, h2, h3, fun h => ?_⟩
  have h4 : Time.eq (Time.nanos 0.0) (Time.nanos 0.8) = true :=
    @h (Time.nanos 0.0) (Time.nanos 0.4) (Time.nanos 0.8) h1 h2
  rw [h3] at h4
  exact Bool.false_ne_true h4

end RTCommon
